import Mathlib

/-!
Verification of the single-utterance audio capture tool (src/main.go).

The development shallowly embeds the relevant parts of the Go source:
amplitudes and window means are modelled as rationals, 16-bit samples as
integers, the WAV byte stream as a list of naturals in [0, 256), and the
beep synthesis over the reals.
-/

set_option maxRecDepth 8000

/-- Constant `sampleRate = 16000` from the source. -/
def sampleRate : ℕ := 16000

/-- Constant `windowSize = 2 * 16000` from the source. -/
def windowSize : ℕ := 2 * 16000

/-- Normalised amplitude of a sample: `math.Abs(float64(sample)) / math.MaxInt16`
with `math.MaxInt16 = 32767`. -/
def amp (s : ℤ) : ℚ := |(s : ℚ)| / 32767

/-- State of the sliding-window estimator: the ring buffer `window`
(slot `j` for `j < windowSize`; `make([]float64, windowSize)` initialises
all slots to zero) and the running `sampleCount`. -/
structure EstState where
  window : ℕ → ℚ
  sampleCount : ℕ

/-- Sum of the full ring buffer, as in `calculateAverage`'s loop. -/
def winSum (w : ℕ → ℚ) : ℚ := ∑ j in Finset.range windowSize, w j

/-- Per-sample work of the inner loop (src/main.go lines 131-138):
store the amplitude at `sampleCount % windowSize`, increment the counter,
and whenever `sampleCount >= windowSize` afterwards, produce the current
window mean (`calculateAverage(window)`). -/
def observe (st : EstState) (s : ℤ) : EstState × Option ℚ :=
  let a := amp s
  let w := fun j => if j = st.sampleCount % windowSize then a else st.window j
  let c := st.sampleCount + 1
  if windowSize ≤ c then (⟨w, c⟩, some (winSum w / windowSize)) else (⟨w, c⟩, none)

/-- Feed a list of samples through `observe`, collecting the emitted
window means in order. -/
def processSamples (st : EstState) : List ℤ → EstState × List ℚ
  | [] => (st, [])
  | s :: rest =>
    let o := observe st s
    let r := processSamples o.1 rest
    (r.1, o.2.toList ++ r.2)

/-- Initial estimator state: zeroed window, `sampleCount = 0`. -/
def initEst : EstState := ⟨fun _ => 0, 0⟩

/-- Estimator state after the first `k` samples of `l`. -/
def stAfter (l : List ℤ) (k : ℕ) : EstState := (processSamples initEst (l.take k)).1

/-- Activity-detector state: `noiseFloor`, `maxNoiseFloor`,
`recordingStarted`, `silenceCount` (src/main.go lines 95-99). -/
structure DetState where
  noiseFloor : ℚ
  maxNoiseFloor : ℚ
  recordingStarted : Bool
  silenceCount : ℕ

/-- Initial detector state: all zero / false. -/
def initDet : DetState := ⟨0, 0, false, 0⟩

/-- One window evaluation of the detector (src/main.go lines 140-160),
given the current window mean `c`.  Returns the updated state and whether
the code returns (stops recording) at this evaluation.  On the stopping
evaluation the code returns at line 153, before the `noiseFloor`
assignment of line 160. -/
def detStep (d : DetState) (c : ℚ) : DetState × Bool :=
  if !d.recordingStarted then
    if c > d.noiseFloor * 1.5 then
      ({ d with recordingStarted := true, maxNoiseFloor := c, noiseFloor := c }, false)
    else
      ({ d with noiseFloor := c }, false)
  else
    if c > d.maxNoiseFloor then
      ({ d with maxNoiseFloor := c, silenceCount := 0, noiseFloor := c }, false)
    else if c < d.maxNoiseFloor * 0.5 then
      if d.silenceCount + 1 > 5 then
        ({ d with silenceCount := d.silenceCount + 1 }, true)
      else
        ({ d with silenceCount := d.silenceCount + 1, noiseFloor := c }, false)
    else
      ({ d with silenceCount := 0, noiseFloor := c }, false)

/-- Run the detector over a list of window means, stopping at the first
evaluation that triggers the return; the second component is the index of
that evaluation, if any. -/
def detRun (d : DetState) : List ℚ → DetState × Option ℕ
  | [] => (d, none)
  | c :: rest =>
    let s := detStep d c
    if s.2 then (s.1, some 0)
    else
      let r := detRun s.1 rest
      (r.1, r.2.map (· + 1))

/-- State evolution of the detector ignoring the stop signal (the state
component of `detStep`, folded over the means). -/
def runState (d : DetState) (cs : List ℚ) : DetState :=
  cs.foldl (fun d c => (detStep d c).1) d

/-- The running `maxNoiseFloor` seen by the detector in the recording
state after the first `p` means (updated exactly when `c > maxNoiseFloor`). -/
def maxAt (d : DetState) (cs : List ℚ) (p : ℕ) : ℚ :=
  (cs.take p).foldl (fun m c => if c > m then c else m) d.maxNoiseFloor

/-- Evaluation `p` is a silence ("low") evaluation: its mean is strictly
below half the running maximum at that point. -/
def isLow (d : DetState) (cs : List ℚ) (p : ℕ) : Prop :=
  cs.getD p 0 < maxAt d cs p * 0.5

/-- Length of the run of consecutive low evaluations ending just before
evaluation `p`. -/
def tl (d : DetState) (cs : List ℚ) : ℕ → ℕ
  | 0 => 0
  | p + 1 => if cs.getD p 0 < maxAt d cs p * 0.5 then tl d cs p + 1 else 0

/-- The detector, run without stopping up to evaluation `p`, signals stop
at evaluation `p`. -/
def stopsAt (d : DetState) (cs : List ℚ) (p : ℕ) : Prop :=
  p < cs.length ∧ (detStep (runState d (cs.take p)) (cs.getD p 0)).2 = true

/-- The window-mean sequence of the spec scenario: a rise from 0.01 to
0.5 over one evaluation, then exactly flat at 0.5 for six further
evaluations. -/
def scenarioMeans : List ℚ := [0.01, 0.5, 0.5, 0.5, 0.5, 0.5, 0.5, 0.5]

/-- Capture-loop state: output buffer, estimator and detector state. -/
structure CaptureState where
  buffer : List ℤ
  est : EstState
  det : DetState

/-- Initial capture state. -/
def initCapture : CaptureState := ⟨[], initEst, initDet⟩

/-- The per-block inner loop (src/main.go lines 131-162): feed each of
the block's samples to the estimator and, on each emitted window mean, to
the detector; return true as soon as the detector triggers the stop
return (the rest of the block is not processed). -/
def processBlock (est : EstState) (det : DetState) : List ℤ → EstState × DetState × Bool
  | [] => (est, det, false)
  | s :: rest =>
    let o := observe est s
    match o.2 with
    | none => processBlock o.1 det rest
    | some c =>
      let r := detStep det c
      if r.2 then (o.1, r.1, true)
      else processBlock o.1 r.1 rest

/-- The capture loop (src/main.go lines 116-164): at each iteration check
the one-shot stop flag (the closed `stopChan`); if set, return the buffer;
otherwise read the next block, append it whole to the buffer, and process
its samples, returning the buffer when the detector stops.  The second
component records whether the return was caused by the detector.  The
input stream is modelled as a finite list of blocks; running out of
blocks ends the loop without a detector stop. -/
def captureLoop : List (List ℤ) → (ℕ → Bool) → ℕ → CaptureState → List ℤ × Bool
  | [], _, _, st => (st.buffer, false)
  | b :: rest, flag, i, st =>
    if flag i then (st.buffer, false)
    else
      let r := processBlock st.est st.det b
      if r.2.2 then (st.buffer ++ b, true)
      else captureLoop rest flag (i + 1) ⟨st.buffer ++ b, r.1, r.2.1⟩

/-- Little-endian bytes of a 16-bit value, as `binary.Write` emits a
`uint16` field. -/
def u16le (n : ℕ) : List ℕ := [n % 256, n / 256 % 256]

/-- Little-endian bytes of a 32-bit value, as `binary.Write` emits a
`uint32` field. -/
def u32le (n : ℕ) : List ℕ :=
  [n % 256, n / 256 % 256, n / 65536 % 256, n / 16777216 % 256]

/-- Little-endian two's-complement bytes of an `int16` sample, as
`binary.Write(audioBuffer, binary.LittleEndian, in)` emits them. -/
def int16le (s : ℤ) : List ℕ := [(s % 65536).toNat % 256, (s % 65536).toNat / 256]

/-- The `wavHeader` struct (src/main.go lines 22-36). -/
structure WavHeader where
  chunkID : List ℕ
  chunkSize : ℕ
  format : List ℕ
  subchunk1ID : List ℕ
  subchunk1Size : ℕ
  audioFormat : ℕ
  numChannels : ℕ
  sampleRate : ℕ
  byteRate : ℕ
  blockAlign : ℕ
  bitsPerSample : ℕ
  subchunk2ID : List ℕ
  subchunk2Size : ℕ

/-- `createWAVHeader` (src/main.go lines 63-79). -/
def createWAVHeader (dataSize : ℕ) : WavHeader where
  chunkID := [82, 73, 70, 70]
  chunkSize := 36 + dataSize
  format := [87, 65, 86, 69]
  subchunk1ID := [102, 109, 116, 32]
  subchunk1Size := 16
  audioFormat := 1
  numChannels := 1
  sampleRate := sampleRate
  byteRate := sampleRate * 2
  blockAlign := 2
  bitsPerSample := 16
  subchunk2ID := [100, 97, 116, 97]
  subchunk2Size := dataSize

/-- `binary.Write(os.Stdout, binary.LittleEndian, header)`: the struct
fields serialised in declaration order, multi-byte integers little-endian. -/
def headerBytes (h : WavHeader) : List ℕ :=
  h.chunkID ++ u32le h.chunkSize ++ h.format ++ h.subchunk1ID ++
  u32le h.subchunk1Size ++ u16le h.audioFormat ++ u16le h.numChannels ++
  u32le h.sampleRate ++ u32le h.byteRate ++ u16le h.blockAlign ++
  u16le h.bitsPerSample ++ h.subchunk2ID ++ u32le h.subchunk2Size

/-- The byte stream `main` writes to stdout: the header built from
`uint32(audioBuffer.Len())` (the byte length `2 * k`, truncated to 32
bits by the Go conversion) followed by the buffer's sample bytes. -/
def encodeWAV (samples : List ℤ) : List ℕ :=
  headerBytes (createWAVHeader (2 * samples.length % 4294967296)) ++
  samples.flatMap int16le

/-- Little-endian value of a byte list. -/
def deLE : List ℕ → ℕ
  | [] => 0
  | b :: rest => b + 256 * deLE rest

/-- Parse the 32-bit little-endian field at byte offset `off`. -/
def parseU32 (bs : List ℕ) (off : ℕ) : ℕ := deLE ((bs.drop off).take 4)

/-- Parse the 16-bit little-endian field at byte offset `off`. -/
def parseU16 (bs : List ℕ) (off : ℕ) : ℕ := deLE ((bs.drop off).take 2)

/-- Constant `beepDuration = 0.15` from the source. -/
def beepDuration : ℚ := 0.15

/-- `beepSamples := int(beepDuration * sampleRate)` (src/main.go line 176). -/
def beepNumSamples : ℕ := (⌊beepDuration * 16000⌋ : ℤ).toNat

/-- Sample `i` of `generateBeep` (src/main.go lines 179-184):
`sin(2π·980·t) · sin(π·t/0.15) · 0.5` with `t = i / 16000`. -/
noncomputable def beepSample (i : ℕ) : ℝ :=
  Real.sin (2 * Real.pi * 980 * ((i : ℝ) / 16000)) *
    Real.sin (Real.pi * ((i : ℝ) / 16000) / 0.15) * 0.5

/-! ## Estimator lemmas -/

theorem windowSize_eq : windowSize = 32000 := rfl

theorem initEst_sampleCount : initEst.sampleCount = 0 := rfl

theorem observe_fst (st : EstState) (s : ℤ) :
    (observe st s).1 = ⟨fun j => if j = st.sampleCount % windowSize then amp s
                        else st.window j,
                       st.sampleCount + 1⟩ := by
  unfold observe
  by_cases h : windowSize ≤ st.sampleCount + 1 <;> simp [h]

theorem observe_snd (st : EstState) (s : ℤ) :
    (observe st s).2 = if windowSize ≤ st.sampleCount + 1 then
        some (winSum (observe st s).1.window / windowSize)
      else none := by
  unfold observe
  by_cases h : windowSize ≤ st.sampleCount + 1 <;> simp [h]

theorem processSamples_cons (st : EstState) (s : ℤ) (rest : List ℤ) :
    processSamples st (s :: rest) =
      ((processSamples (observe st s).1 rest).1,
       (observe st s).2.toList ++ (processSamples (observe st s).1 rest).2) := rfl

theorem processSamples_fst_sampleCount (l : List ℤ) : ∀ st : EstState,
    (processSamples st l).1.sampleCount = st.sampleCount + l.length := by
  induction l with
  | nil => intro st; simp [processSamples]
  | cons s rest ih =>
      intro st
      rw [processSamples_cons]
      simp only [ih, observe_fst, List.length_cons]
      omega

theorem processSamples_length (l : List ℤ) : ∀ st : EstState,
    (processSamples st l).2.length =
      st.sampleCount + l.length + 1 - max (st.sampleCount + 1) windowSize := by
  induction l with
  | nil =>
      intro st
      simp only [processSamples, List.length_nil, windowSize]
      omega
  | cons s rest ih =>
      intro st
      rw [processSamples_cons]
      rw [List.length_append, ih, observe_snd, observe_fst]
      simp only [windowSize] at *
      by_cases h : 2 * 16000 ≤ st.sampleCount + 1 <;>
        simp only [h, if_true, if_false, Option.toList_some, Option.toList_none,
          List.length_cons, List.length_nil] <;>
        omega

theorem processSamples_append (l₁ l₂ : List ℤ) : ∀ st : EstState,
    processSamples st (l₁ ++ l₂) =
      ((processSamples (processSamples st l₁).1 l₂).1,
       (processSamples st l₁).2 ++ (processSamples (processSamples st l₁).1 l₂).2) := by
  induction l₁ with
  | nil => intro st; simp [processSamples]
  | cons s rest ih =>
      intro st
      simp only [List.cons_append, processSamples_cons, ih, List.append_assoc]

theorem stAfter_sampleCount (l : List ℤ) (k : ℕ) (hk : k ≤ l.length) :
    (stAfter l k).sampleCount = k := by
  unfold stAfter
  rw [processSamples_fst_sampleCount]
  simp [initEst, List.length_take]
  omega

theorem stAfter_succ (l : List ℤ) (k : ℕ) (hk : k < l.length) :
    stAfter l (k + 1) = (observe (stAfter l k) (l.getD k 0)).1 := by
  unfold stAfter
  rw [List.take_succ]
  have h1 : l[k]? = some l[k] := List.getElem?_eq_getElem hk
  have h2 : l.getD k 0 = l[k] := by
    simp [List.getD, h1]
  rw [h1, h2, processSamples_append]
  simp [processSamples]

theorem win_inv (l : List ℤ) : ∀ k, k ≤ l.length → ∀ i, i < k → k ≤ i + windowSize →
    (stAfter l k).window (i % windowSize) = amp (l.getD i 0) := by
  intro k
  induction k with
  | zero => omega
  | succ k ih =>
      intro hk i hik hwin
      rw [stAfter_succ l k (by omega), observe_fst]
      rw [stAfter_sampleCount l k (by omega)]
      by_cases hek : i = k
      · subst hek
        simp
      · have hne : i % windowSize ≠ k % windowSize := by
          simp only [windowSize] at *
          omega
        simp only [hne, if_false]
        exact ih (by omega) i (by omega) (by omega)

/-- The list of window means emitted over `l`: one per sample from the
`windowSize`-th on, each the mean of the then-current ring contents. -/
theorem emitted_eq (l : List ℤ) :
    (processSamples initEst l).2 =
      (List.range (l.length + 1 - windowSize)).map
        (fun m => winSum ((stAfter l (m + windowSize)).window) / windowSize) := by
  induction l using List.reverseRecOn with
  | nil => simp [processSamples, windowSize]
  | append_singleton l s ih =>
      rw [processSamples_append]
      have hfst : (processSamples initEst l).1 = stAfter (l ++ [s]) l.length := by
        unfold stAfter
        rw [List.take_append_of_le_length (le_refl _), List.take_length]
      have hsc : (stAfter (l ++ [s]) l.length).sampleCount = l.length :=
        stAfter_sampleCount _ _ (by simp)
      have hget : (l ++ [s]).getD l.length 0 = s := by
        simp [List.getD, List.getElem?_append_right (le_refl l.length)]
      have hsucc : stAfter (l ++ [s]) (l.length + 1) =
          (observe (stAfter (l ++ [s]) l.length) s).1 := by
        rw [stAfter_succ (l ++ [s]) l.length (by simp), hget]
      have htake : ∀ m, m + windowSize ≤ l.length →
          stAfter (l ++ [s]) (m + windowSize) = stAfter l (m + windowSize) := by
        intro m hm
        unfold stAfter
        rw [List.take_append_of_le_length hm]
      rw [ih]
      simp only [processSamples, List.append_nil]
      rw [observe_snd, hfst, hsc]
      by_cases hem : windowSize ≤ l.length + 1
      · have hr : l.length + 1 + 1 - windowSize = (l.length + 1 - windowSize) + 1 := by
          omega
      -- the new sample adds one evaluation at the end of the range
        rw [List.length_append]
        simp only [List.length_cons, List.length_nil]
        rw [hr, List.range_succ, List.map_append]
        have h₁ : (List.range (l.length + 1 - windowSize)).map
              (fun m => winSum ((stAfter l (m + windowSize)).window) / windowSize) =
            (List.range (l.length + 1 - windowSize)).map
              (fun m => winSum ((stAfter (l ++ [s]) (m + windowSize)).window) / windowSize) := by
          apply List.map_congr_left
          intro m hm
          rw [List.mem_range] at hm
          rw [htake m (by omega)]
        have h₂ : [l.length + 1 - windowSize].map
              (fun m => winSum ((stAfter (l ++ [s]) (m + windowSize)).window) / windowSize) =
            (some (winSum (observe (stAfter (l ++ [s]) l.length) s).1.window /
              windowSize)).toList := by
          simp only [List.map_cons, List.map_nil, Option.toList_some]
          have hws : l.length + 1 - windowSize + windowSize = l.length + 1 := by omega
          rw [hws, hsucc]
        rw [h₁, h₂]
        simp [hem]
      · have h0 : l.length + 1 - windowSize = 0 := by omega
        have h0' : (l ++ [s]).length + 1 - windowSize = 0 := by
          simp only [List.length_append, List.length_cons, List.length_nil]
          omega
        simp only [hem, if_false, Option.toList_none, List.append_nil, h0, List.range_zero,
          List.map_nil, List.length_append, List.length_cons, List.length_nil]
        have h0t : l.length + 1 + 1 - windowSize = 0 := by omega
        rw [h0t]
        simp

theorem win_sum_eq (l : List ℤ) (k : ℕ) (hk : windowSize ≤ k) (hl : k ≤ l.length) :
    winSum ((stAfter l k).window) =
      ∑ i in Finset.Ico (k - windowSize) k, amp (l.getD i 0) := by
  unfold winSum
  symm
  apply Finset.sum_nbij' (fun i => i % windowSize)
    (fun j => k - windowSize + ((j + windowSize - (k - windowSize) % windowSize) % windowSize))
  · intro a ha
    simp only [Finset.mem_Ico] at ha
    simp only [Finset.mem_range, windowSize] at *
    omega
  · intro j hj
    simp only [Finset.mem_range] at hj
    simp only [Finset.mem_Ico, windowSize] at *
    omega
  · intro a ha
    simp only [Finset.mem_Ico] at ha
    simp only [windowSize] at *
    omega
  · intro j hj
    simp only [Finset.mem_range] at hj
    simp only [windowSize] at *
    omega
  · intro a ha
    simp only [Finset.mem_Ico] at ha
    exact (win_inv l k hl a (by omega) (by omega)).symm

/-- C1 (amended): for N consumed samples the estimator performs
`N + 1 - windowSize` window evaluations, one at every sample from the
`windowSize`-th onward (the code evaluates whenever
`sampleCount >= windowSize`, not only at multiples of `windowSize`), and
the m-th evaluation's mean is the arithmetic mean of the amplitudes of
exactly the `windowSize` most recent samples, namely samples
`m .. m + windowSize - 1`. -/
theorem estimator_cadence_amended (l : List ℤ) (m : ℕ) :
    (processSamples initEst l).2.length = l.length + 1 - windowSize ∧
    (processSamples initEst l).2[m]? =
      (if m + windowSize ≤ l.length then
        some ((∑ i in Finset.Ico m (m + windowSize), amp (l.getD i 0)) / windowSize)
      else none) := by
  constructor
  · rw [processSamples_length]
    simp only [initEst, windowSize]
    omega
  · rw [emitted_eq]
    by_cases hm : m + windowSize ≤ l.length
    · have hlt : m < l.length + 1 - windowSize := by
        simp only [windowSize] at *
        omega
      rw [List.getElem?_map, List.getElem?_range hlt]
      simp only [hm, if_true, Option.map_some']
      have hv := win_sum_eq l (m + windowSize) (by omega) hm
      have hico : m + windowSize - windowSize = m := by omega
      rw [hico] at hv
      rw [hv]
    · have hge : ((List.range (l.length + 1 - windowSize)).map
          (fun m => winSum ((stAfter l (m + windowSize)).window) / windowSize)).length ≤ m := by
        simp only [List.length_map, List.length_range, windowSize] at *
        omega
      rw [List.getElem?_eq_none hge]
      simp [hm]

/-- C1 counterexample: on 32001 samples the estimator performs 2 window
evaluations, not `floor(32001 / windowSize) = 1` as the claim states. -/
theorem estimator_cadence_counterexample :
    ¬ ((processSamples initEst (List.replicate 32001 (0 : ℤ))).2.length =
        (List.replicate 32001 (0 : ℤ)).length / windowSize) := by
  intro hc
  rw [processSamples_length, initEst_sampleCount, windowSize_eq, List.length_replicate] at hc
  omega

/-! ## Detector lemmas -/

theorem runState_nil (d : DetState) : runState d [] = d := rfl

theorem runState_cons (d : DetState) (c : ℚ) (cs : List ℚ) :
    runState d (c :: cs) = runState (detStep d c).1 cs := rfl

theorem stopsAt_zero (d : DetState) (c : ℚ) (cs : List ℚ) :
    stopsAt d (c :: cs) 0 ↔ (detStep d c).2 = true := by
  unfold stopsAt
  simp [runState_nil, List.getD_cons_zero]

theorem stopsAt_succ (d : DetState) (c : ℚ) (cs : List ℚ) (p : ℕ) :
    stopsAt d (c :: cs) (p + 1) ↔ stopsAt (detStep d c).1 cs p := by
  unfold stopsAt
  rw [List.take_succ_cons, runState_cons]
  simp [List.getD_cons_succ, Nat.succ_lt_succ_iff]

theorem detRun_none_iff (cs : List ℚ) : ∀ d : DetState,
    ((detRun d cs).2 = none ↔ ∀ p, ¬ stopsAt d cs p) := by
  induction cs with
  | nil =>
      intro d
      simp only [detRun]
      simp [stopsAt]
  | cons c rest ih =>
      intro d
      simp only [detRun]
      by_cases hs : (detStep d c).2 = true
      · simp only [hs, if_true]
        simp only [reduceCtorEq, false_iff, not_forall, not_not]
        exact ⟨0, (stopsAt_zero d c rest).mpr hs⟩
      · have hs' : (detStep d c).2 = false := by
          revert hs; cases (detStep d c).2 <;> simp
        simp only [hs', Bool.false_eq_true, if_false, Option.map_eq_none', ih]
        constructor
        · intro h p
          match p with
          | 0 => rw [stopsAt_zero]; simp [hs']
          | q + 1 => rw [stopsAt_succ]; exact h q
        · intro h q
          have := h (q + 1)
          rw [stopsAt_succ] at this
          exact this

theorem detRun_some_iff (cs : List ℚ) : ∀ (d : DetState) (p : ℕ),
    ((detRun d cs).2 = some p ↔
      (stopsAt d cs p ∧ ∀ q, q < p → ¬ stopsAt d cs q)) := by
  induction cs with
  | nil =>
      intro d p
      simp only [detRun]
      simp [stopsAt]
  | cons c rest ih =>
      intro d p
      simp only [detRun]
      by_cases hs : (detStep d c).2 = true
      · simp only [hs, if_true]
        constructor
        · intro h
          have hp : p = 0 := by
            simpa using h.symm
          subst hp
          exact ⟨(stopsAt_zero d c rest).mpr hs, by omega⟩
        · intro h
          match p, h with
          | 0, _ => rfl
          | q + 1, ⟨_, hmin⟩ =>
              exact absurd ((stopsAt_zero d c rest).mpr hs) (hmin 0 (by omega))
      · have hs' : (detStep d c).2 = false := by
          revert hs; cases (detStep d c).2 <;> simp
        simp only [hs', Bool.false_eq_true, if_false, Option.map_eq_some']
        constructor
        · intro h
          obtain ⟨q, hq, hqp⟩ := h
          rw [ih] at hq
          subst hqp
          refine ⟨(stopsAt_succ d c rest q).mpr hq.1, ?_⟩
          intro j hj
          match j with
          | 0 => rw [stopsAt_zero]; simp [hs']
          | j + 1 => rw [stopsAt_succ]; exact hq.2 j (by omega)
        · intro h
          match p, h with
          | 0, ⟨h0, _⟩ =>
              rw [stopsAt_zero] at h0
              exact absurd h0 (by simp [hs'])
          | q + 1, ⟨hq, hmin⟩ =>
              refine ⟨q, ?_, rfl⟩
              rw [ih]
              refine ⟨(stopsAt_succ d c rest q).mp hq, ?_⟩
              intro j hj hcon
              exact (hmin (j + 1) (by omega)) ((stopsAt_succ d c rest j).mpr hcon)

theorem take_concat_getD {α : Type} (l : List α) (p : ℕ) (d₀ : α) (hp : p < l.length) :
    l.take (p + 1) = l.take p ++ [l.getD p d₀] := by
  rw [List.take_succ]
  have h := List.getElem?_eq_getElem hp
  rw [h]
  simp [List.getD, h]

theorem runState_append (d : DetState) (l₁ l₂ : List ℚ) :
    runState d (l₁ ++ l₂) = runState (runState d l₁) l₂ := by
  unfold runState
  rw [List.foldl_append]

theorem runState_take_succ (d : DetState) (cs : List ℚ) (p : ℕ) (hp : p < cs.length) :
    runState d (cs.take (p + 1)) = (detStep (runState d (cs.take p)) (cs.getD p 0)).1 := by
  rw [take_concat_getD cs p 0 hp, runState_append]
  rfl

theorem maxAt_zero (d : DetState) (cs : List ℚ) : maxAt d cs 0 = d.maxNoiseFloor := rfl

theorem maxAt_succ (d : DetState) (cs : List ℚ) (p : ℕ) (hp : p < cs.length) :
    maxAt d cs (p + 1) =
      (if cs.getD p 0 > maxAt d cs p then cs.getD p 0 else maxAt d cs p) := by
  unfold maxAt
  rw [take_concat_getD cs p 0 hp, List.foldl_append]
  rfl

theorem foldl_max_nonneg (l : List ℚ) : ∀ m : ℚ, 0 ≤ m → (∀ c ∈ l, 0 ≤ c) →
    0 ≤ l.foldl (fun m c => if c > m then c else m) m := by
  induction l with
  | nil => intro m hm _; exact hm
  | cons c rest ih =>
      intro m hm hl
      rw [List.foldl_cons]
      have hc : (0 : ℚ) ≤ c := hl c (by simp)
      by_cases h : c > m
      · simp only [h, if_true]
        exact ih c hc (fun x hx => hl x (by simp [hx]))
      · simp only [h, if_false]
        exact ih m hm (fun x hx => hl x (by simp [hx]))

theorem maxAt_nonneg (d : DetState) (cs : List ℚ) (p : ℕ)
    (hmax : 0 ≤ d.maxNoiseFloor) (hcs : ∀ c ∈ cs, 0 ≤ c) : 0 ≤ maxAt d cs p := by
  unfold maxAt
  exact foldl_max_nonneg _ _ hmax (fun c hc => hcs c (List.take_subset p cs hc))

theorem getD_nonneg (cs : List ℚ) (p : ℕ) (hcs : ∀ c ∈ cs, 0 ≤ c) :
    0 ≤ cs.getD p 0 := by
  by_cases hp : p < cs.length
  · rw [List.getD_eq_getElem cs 0 hp]
    exact hcs _ (List.getElem_mem hp)
  · rw [List.getD_eq_default cs 0 (by omega)]

/-- `detStep` in the recording state, with the armed branch resolved. -/
theorem detStep_recording (d : DetState) (c : ℚ) (h : d.recordingStarted = true) :
    detStep d c =
      if c > d.maxNoiseFloor then
        ({ d with maxNoiseFloor := c, silenceCount := 0, noiseFloor := c }, false)
      else if c < d.maxNoiseFloor * 0.5 then
        (if d.silenceCount + 1 > 5 then
          ({ d with silenceCount := d.silenceCount + 1 }, true)
        else
          ({ d with silenceCount := d.silenceCount + 1, noiseFloor := c }, false))
      else
        ({ d with silenceCount := 0, noiseFloor := c }, false) := by
  unfold detStep
  rw [h]
  simp

/-- State invariant of the detector run from a recording state with a
zero silence counter: the recording flag stays set, `maxNoiseFloor`
follows the running maximum, and `silenceCount` is the length of the
current run of consecutive low evaluations. -/
theorem det_inv (cs : List ℚ) (d : DetState) (hrec : d.recordingStarted = true)
    (hsil : d.silenceCount = 0) (hmax : 0 ≤ d.maxNoiseFloor) (hcs : ∀ c ∈ cs, 0 ≤ c) :
    ∀ p, p ≤ cs.length →
      (runState d (cs.take p)).recordingStarted = true ∧
      (runState d (cs.take p)).maxNoiseFloor = maxAt d cs p ∧
      (runState d (cs.take p)).silenceCount = tl d cs p := by
  intro p
  induction p with
  | zero =>
      intro _
      simp [runState_nil, maxAt_zero, tl, hrec, hsil]
  | succ p ih =>
      intro hp
      have hp' : p < cs.length := by omega
      obtain ⟨h1, h2, h3⟩ := ih (by omega)
      rw [runState_take_succ d cs p hp', maxAt_succ d cs p hp']
      have hm0 : 0 ≤ maxAt d cs p := maxAt_nonneg d cs p hmax hcs
      rw [detStep_recording _ _ h1, h2, h3]
      by_cases hgt : cs.getD p 0 > maxAt d cs p
      · have hnl : ¬ cs.getD p 0 < maxAt d cs p * 0.5 := by nlinarith
        simp only [hgt, if_true, tl, hnl, if_false]
        exact ⟨h1, by trivial, by trivial⟩
      · simp only [hgt, if_false]
        by_cases hlow : cs.getD p 0 < maxAt d cs p * 0.5
        · by_cases hcnt : tl d cs p + 1 > 5
          · simp only [hlow, if_true, hcnt, tl]
            exact ⟨h1, by trivial, by trivial⟩
          · simp only [hlow, if_true, hcnt, if_false, tl]
            exact ⟨h1, by trivial, by trivial⟩
        · simp only [hlow, if_false, tl]
          exact ⟨h1, by trivial, by trivial⟩

theorem tl_succ_pos (d : DetState) (cs : List ℚ) (p : ℕ) (h : isLow d cs p) :
    tl d cs (p + 1) = tl d cs p + 1 := by
  unfold isLow at h
  rw [tl, if_pos h]

theorem tl_succ_neg (d : DetState) (cs : List ℚ) (p : ℕ) (h : ¬ isLow d cs p) :
    tl d cs (p + 1) = 0 := by
  unfold isLow at h
  rw [tl, if_neg h]

theorem tl_le (d : DetState) (cs : List ℚ) : ∀ p, tl d cs p ≤ p := by
  intro p
  induction p with
  | zero => simp [tl]
  | succ p ih =>
      rw [tl]
      split <;> omega

theorem tl_low (d : DetState) (cs : List ℚ) : ∀ p r, r ≤ tl d cs p →
    ∀ i, p - r ≤ i → i < p → isLow d cs i := by
  intro p
  induction p with
  | zero => intro r _ i _ h; omega
  | succ p ih =>
      intro r hr i hge hlt
      by_cases hl : isLow d cs p
      · rw [tl_succ_pos d cs p hl] at hr
        by_cases hip : i = p
        · subst hip; exact hl
        · exact ih (r - 1) (by omega) i (by omega) (by omega)
      · rw [tl_succ_neg d cs p hl] at hr
        omega

theorem tl_of_run (d : DetState) (cs : List ℚ) : ∀ r k,
    (∀ i, k ≤ i → i < k + r → isLow d cs i) → r ≤ tl d cs (k + r) := by
  intro r
  induction r with
  | zero => intro k _; omega
  | succ r ih =>
      intro k h
      have hlast : isLow d cs (k + r) := h _ (by omega) (by omega)
      have hkr : k + (r + 1) = (k + r) + 1 := by omega
      rw [hkr, tl_succ_pos d cs _ hlast]
      have := ih k (fun i hi hi2 => h i hi (by omega))
      omega

/-- In a recording state with a fresh silence counter, the detector stops
at evaluation `p` exactly when that evaluation is low and is preceded by
at least five consecutive low evaluations. -/
theorem stopsAt_iff (cs : List ℚ) (d : DetState) (hrec : d.recordingStarted = true)
    (hsil : d.silenceCount = 0) (hmax : 0 ≤ d.maxNoiseFloor) (hcs : ∀ c ∈ cs, 0 ≤ c)
    (p : ℕ) :
    stopsAt d cs p ↔ (p < cs.length ∧ isLow d cs p ∧ 5 ≤ tl d cs p) := by
  unfold stopsAt
  by_cases hp : p < cs.length
  · obtain ⟨h1, h2, h3⟩ := det_inv cs d hrec hsil hmax hcs p (by omega)
    have hm0 : 0 ≤ maxAt d cs p := maxAt_nonneg d cs p hmax hcs
    simp only [hp, true_and]
    rw [detStep_recording _ _ h1, h2, h3]
    unfold isLow
    by_cases hgt : cs.getD p 0 > maxAt d cs p
    · have hnl : ¬ cs.getD p 0 < maxAt d cs p * 0.5 := by nlinarith
      rw [if_pos hgt]
      show false = true ↔ _
      constructor
      · intro hh
        simp at hh
      · rintro ⟨hl, _⟩
        exact absurd hl hnl
    · rw [if_neg hgt]
      by_cases hlow : cs.getD p 0 < maxAt d cs p * 0.5
      · rw [if_pos hlow]
        by_cases hcnt : tl d cs p + 1 > 5
        · rw [if_pos hcnt]
          show true = true ↔ _
          constructor
          · intro _
            exact ⟨hlow, by omega⟩
          · intro _
            rfl
        · rw [if_neg hcnt]
          show false = true ↔ _
          constructor
          · intro hh
            simp at hh
          · rintro ⟨_, h5⟩
            omega
      · rw [if_neg hlow]
        show false = true ↔ _
        constructor
        · intro hh
          simp at hh
        · rintro ⟨hl, _⟩
          exact absurd hl hlow
  · simp [hp]

/-- C2: once the detector is recording (with a fresh silence counter and
the nonnegative peak and window means the program always produces), the
stop return fires iff some six consecutive window evaluations are all
below half the running maximum — any intervening evaluation reaching a
new maximum or landing in the hysteresis band resets the counter — and it
fires exactly at the sixth consecutive low evaluation (the earliest
six-long low run). -/
theorem detector_stop_iff (d : DetState) (cs : List ℚ)
    (hrec : d.recordingStarted = true) (hsil : d.silenceCount = 0)
    (hmax : 0 ≤ d.maxNoiseFloor) (hcs : ∀ c ∈ cs, 0 ≤ c) :
    ((detRun d cs).2.isSome = true ↔
      ∃ k, k + 6 ≤ cs.length ∧ ∀ i, i < 6 → isLow d cs (k + i)) ∧
    (∀ p, (detRun d cs).2 = some p →
      5 ≤ p ∧ (∀ i, i < 6 → isLow d cs (p - 5 + i)) ∧
      (∀ j, 5 ≤ j → j < p → ¬ (∀ i, i < 6 → isLow d cs (j - 5 + i)))) ∧
    (∀ p, p < cs.length → ¬ isLow d cs p →
      (runState d (cs.take (p + 1))).silenceCount = 0) := by
  have hchar := stopsAt_iff cs d hrec hsil hmax hcs
  refine ⟨?_, ?_, ?_⟩
  · constructor
    · intro hsome
      obtain ⟨p, hp⟩ := Option.isSome_iff_exists.mp hsome
      rw [detRun_some_iff] at hp
      obtain ⟨hstop, _⟩ := hp
      rw [hchar] at hstop
      obtain ⟨hlen, hlow, htl⟩ := hstop
      have hp5 : 5 ≤ p := le_trans htl (tl_le d cs p)
      refine ⟨p - 5, by omega, ?_⟩
      intro i hi
      by_cases hi5 : i = 5
      · subst hi5
        have : p - 5 + 5 = p := by omega
        rw [this]
        exact hlow
      · exact tl_low d cs p 5 htl (p - 5 + i) (by omega) (by omega)
    · rintro ⟨k, hk6, hlows⟩
      cases ho : (detRun d cs).2 with
      | some p => simp
      | none =>
          exfalso
          have hnone := (detRun_none_iff cs d).mp ho
          apply hnone (k + 5)
          rw [hchar]
          refine ⟨by omega, ?_, ?_⟩
          · exact hlows 5 (by omega)
          · have := tl_of_run d cs 5 k (fun i hi hi2 => by
              have : i = k + (i - k) := by omega
              rw [this]
              exact hlows (i - k) (by omega))
            omega
  · intro p hp
    rw [detRun_some_iff] at hp
    obtain ⟨hstop, hmin⟩ := hp
    rw [hchar] at hstop
    obtain ⟨hlen, hlow, htl⟩ := hstop
    have hp5 : 5 ≤ p := le_trans htl (tl_le d cs p)
    refine ⟨hp5, ?_, ?_⟩
    · intro i hi
      by_cases hi5 : i = 5
      · subst hi5
        have : p - 5 + 5 = p := by omega
        rw [this]
        exact hlow
      · exact tl_low d cs p 5 htl (p - 5 + i) (by omega) (by omega)
    · intro j hj5 hjp hwin
      apply hmin j hjp
      rw [hchar]
      have hjlow : isLow d cs j := by
        have h5 := hwin 5 (by omega)
        have : j - 5 + 5 = j := by omega
        rwa [this] at h5
      refine ⟨by omega, hjlow, ?_⟩
      have := tl_of_run d cs 5 (j - 5) (fun i hi hi2 => by
        have : i = j - 5 + (i - (j - 5)) := by omega
        rw [this]
        exact hwin (i - (j - 5)) (by omega))
      have hj55 : j - 5 + 5 = j := by omega
      rw [hj55] at this
      omega
  · intro p hp hnl
    obtain ⟨_, _, h3⟩ := det_inv cs d hrec hsil hmax hcs (p + 1) (by omega)
    rw [h3, tl_succ_neg d cs p hnl]

/-- Witness for C2 at a concrete recording state and six low means. -/
theorem detector_stop_iff_witness :
    (((detRun ⟨0, 1, true, 0⟩ [0.1, 0.1, 0.1, 0.1, 0.1, 0.1]).2.isSome = true ↔
      ∃ k, k + 6 ≤ ([0.1, 0.1, 0.1, 0.1, 0.1, 0.1] : List ℚ).length ∧
        ∀ i, i < 6 → isLow ⟨0, 1, true, 0⟩ [0.1, 0.1, 0.1, 0.1, 0.1, 0.1] (k + i)) ∧
    (∀ p, (detRun ⟨0, 1, true, 0⟩ [0.1, 0.1, 0.1, 0.1, 0.1, 0.1]).2 = some p →
      5 ≤ p ∧
      (∀ i, i < 6 → isLow ⟨0, 1, true, 0⟩ [0.1, 0.1, 0.1, 0.1, 0.1, 0.1] (p - 5 + i)) ∧
      (∀ j, 5 ≤ j → j < p →
        ¬ (∀ i, i < 6 → isLow ⟨0, 1, true, 0⟩ [0.1, 0.1, 0.1, 0.1, 0.1, 0.1] (j - 5 + i)))) ∧
    (∀ p, p < ([0.1, 0.1, 0.1, 0.1, 0.1, 0.1] : List ℚ).length →
      ¬ isLow ⟨0, 1, true, 0⟩ [0.1, 0.1, 0.1, 0.1, 0.1, 0.1] p →
      (runState ⟨0, 1, true, 0⟩
        (([0.1, 0.1, 0.1, 0.1, 0.1, 0.1] : List ℚ).take (p + 1))).silenceCount = 0)) :=
  detector_stop_iff ⟨0, 1, true, 0⟩ [0.1, 0.1, 0.1, 0.1, 0.1, 0.1] rfl rfl
    (by show (0:ℚ) ≤ 1; norm_num)
    (by intro c hc; simp at hc; subst hc; norm_num)

/-- C3 counterexample: on the evaluation that emits Stop the code returns
at line 153 and never reaches the `noiseFloor = currentNoiseFloor`
assignment, so the noise floor is not replaced by the current mean there. -/
theorem detector_noise_floor_stop_counterexample :
    ¬ ((detStep ⟨0.9, 1, true, 5⟩ 0.1).1.noiseFloor = 0.1) := by
  norm_num [detStep]

theorem runState_zeros (l : List ℚ) (hl : ∀ x ∈ l, x = 0) : runState initDet l = initDet := by
  induction l with
  | nil => rfl
  | cons c rest ih =>
      have hc : c = 0 := hl c (by simp)
      subst hc
      rw [runState_cons]
      have hstep : (detStep initDet 0).1 = initDet := by
        unfold detStep initDet
        norm_num
      rw [hstep]
      exact ih (fun x hx => hl x (by simp [hx]))

/-- C3 (amended): while armed, the detector transitions to recording at a
window evaluation with mean `c` and prior noise floor `f` exactly when
`c > 1.5 * f` (setting the peak to `c`), starting from `f = 0` the first
evaluation with a positive mean always triggers the transition, and the
running noise floor is replaced by `c` after every evaluation that does
not emit Stop; the evaluation that emits Stop returns immediately and
leaves it unchanged (it is never read again). -/
theorem detector_onset_amended (d : DetState) (c : ℚ) (cs : List ℚ) (j : ℕ) :
    (d.recordingStarted = false →
      (((detStep d c).1.recordingStarted = true) ↔ c > d.noiseFloor * 1.5) ∧
      (detStep d c).2 = false ∧
      (detStep d c).1.noiseFloor = c ∧
      ((detStep d c).1.recordingStarted = true → (detStep d c).1.maxNoiseFloor = c)) ∧
    ((detStep d c).2 = false → (detStep d c).1.noiseFloor = c) ∧
    ((∀ i, i < j → cs.getD i 0 = 0) → j < cs.length → 0 < cs.getD j 0 →
      (runState initDet (cs.take j)).recordingStarted = false ∧
      (runState initDet (cs.take (j + 1))).recordingStarted = true) := by
  refine ⟨?_, ?_, ?_⟩
  · intro harm
    unfold detStep
    rw [harm]
    simp only [Bool.not_false, if_true]
    by_cases ht : c > d.noiseFloor * 1.5
    · rw [if_pos ht]
      exact ⟨⟨fun _ => ht, fun _ => rfl⟩, rfl, rfl, fun _ => rfl⟩
    · rw [if_neg ht]
      refine ⟨⟨fun hh => ?_, fun hh => ?_⟩, rfl, rfl, fun hh => ?_⟩
      · have hh' : false = true := hh
        simp at hh'
      · exact absurd hh ht
      · have hh' : false = true := hh
        simp at hh'
  · unfold detStep
    split_ifs <;> intro hh <;> first | rfl | simp at hh
  · intro hzero hj hpos
    have hall : ∀ x ∈ cs.take j, x = 0 := by
      intro x hx
      obtain ⟨i, hi, hxi⟩ := List.getElem_of_mem hx
      have hil : i < j := by
        have := List.length_take j cs
        omega
      rw [List.getElem_take] at hxi
      rw [← hxi, ← List.getD_eq_getElem cs 0 (by omega)]
      exact hzero i hil
    have hrs : runState initDet (cs.take j) = initDet := runState_zeros _ hall
    refine ⟨by rw [hrs]; rfl, ?_⟩
    rw [runState_take_succ initDet cs j hj, hrs]
    unfold detStep initDet
    simp only [Bool.not_false, if_true]
    have ht : cs.getD j 0 > (0:ℚ) * 1.5 := by
      rw [zero_mul]
      exact hpos
    rw [if_pos ht]

/-- Witness for C3 at a concrete armed state and mean sequence. -/
theorem detector_onset_amended_witness :
    (runState initDet (([0, 2] : List ℚ).take 1)).recordingStarted = false ∧
    (runState initDet (([0, 2] : List ℚ).take 2)).recordingStarted = true :=
  (detector_onset_amended initDet 1 [0, 2] 1).2.2
    (by intro i hi; interval_cases i; rfl)
    (by norm_num)
    (by show (0:ℚ) < ([0, 2] : List ℚ).getD 1 0; norm_num)

/-- C5 counterexample: on the scenario means (rise from 0.01 to 0.5, then
six further evaluations exactly flat at 0.5) the detector never emits
Stop — the claim that exactly one Stop fires at the sixth flat evaluation
is false. -/
theorem scenario_flat_stop_counterexample : (detRun initDet scenarioMeans).2 = none := by
  norm_num [detRun, detStep, scenarioMeans, initDet]

/-- C5 (amended): on the scenario means the detector emits no Stop at
all — each flat evaluation equals the running peak, lands in the
hysteresis band and resets the silence counter; in particular an
evaluation whose mean exactly equals `0.5 * maxNoiseFloor` does not count
as silence (the comparison is strict `<`) but resets the counter. -/
theorem scenario_flat_amended :
    (detRun initDet scenarioMeans).2 = none ∧
    (∀ (d : DetState) (c : ℚ), d.recordingStarted = true → 0 ≤ d.maxNoiseFloor →
      c = d.maxNoiseFloor * 0.5 →
      (detStep d c).2 = false ∧ (detStep d c).1.silenceCount = 0) := by
  constructor
  · norm_num [detRun, detStep, scenarioMeans, initDet]
  · intro d c hrec hm hc
    rw [detStep_recording d c hrec]
    have h1 : ¬ c > d.maxNoiseFloor := by
      rw [hc]
      nlinarith
    have h2 : ¬ c < d.maxNoiseFloor * 0.5 := by
      rw [hc]
      exact lt_irrefl _
    rw [if_neg h1, if_neg h2]
    exact ⟨rfl, rfl⟩

/-- Witness for C5 at a concrete boundary evaluation. -/
theorem scenario_flat_amended_witness :
    (detRun initDet scenarioMeans).2 = none ∧
    (detStep ⟨0, 1, true, 3⟩ 0.5).2 = false ∧
    (detStep ⟨0, 1, true, 3⟩ 0.5).1.silenceCount = 0 :=
  ⟨scenario_flat_amended.1,
   scenario_flat_amended.2 ⟨0, 1, true, 3⟩ 0.5 rfl
     (by show (0:ℚ) ≤ 1; norm_num)
     (by show (0.5:ℚ) = 1 * 0.5; norm_num)⟩

/-- C6 counterexample: the sample `-32768` (the most negative 16-bit
value) has normalised amplitude `32768/32767 > 1`, so the amplitude does
not lie in `[0, 1]` for every 16-bit sample. -/
theorem amp_range_counterexample : ¬ (amp (-32768) ≤ 1) := by
  unfold amp
  rw [show ((-32768 : ℤ) : ℚ) = -32768 by push_cast; ring]
  norm_num

theorem amp_bounds (s : ℤ) (h1 : -32768 ≤ s) (h2 : s ≤ 32767) :
    0 ≤ amp s ∧ amp s ≤ 32768 / 32767 := by
  unfold amp
  constructor
  · positivity
  · have habs : |(s : ℚ)| ≤ 32768 := by
      rw [abs_le]
      constructor
      · exact_mod_cast h1
      · have h : (s : ℚ) ≤ 32767 := by exact_mod_cast h2
        linarith
    have h327 : (0 : ℚ) ≤ 32767 := by norm_num
    exact div_le_div_of_nonneg_right habs h327

theorem mean_bounds (w : ℕ → ℚ) (hw : ∀ j, 0 ≤ w j ∧ w j ≤ 32768 / 32767) :
    0 ≤ winSum w / windowSize ∧ winSum w / windowSize ≤ 32768 / 32767 := by
  have h0 : 0 ≤ winSum w := Finset.sum_nonneg (fun j _ => (hw j).1)
  have hws : (0 : ℚ) < windowSize := by
    rw [windowSize]
    norm_num
  have h1 : winSum w ≤ windowSize * (32768 / 32767) := by
    unfold winSum
    calc ∑ j in Finset.range windowSize, w j
        ≤ ∑ _j in Finset.range windowSize, (32768 / 32767 : ℚ) :=
          Finset.sum_le_sum (fun j _ => (hw j).2)
      _ = windowSize * (32768 / 32767) := by
          rw [Finset.sum_const, Finset.card_range, nsmul_eq_mul]
  constructor
  · exact div_nonneg h0 (le_of_lt hws)
  · rw [div_le_iff₀ hws]
    calc winSum w ≤ windowSize * (32768 / 32767) := h1
      _ = 32768 / 32767 * windowSize := by ring

theorem est_bounds (l : List ℤ) : ∀ st : EstState,
    (∀ j, 0 ≤ st.window j ∧ st.window j ≤ 32768 / 32767) →
    (∀ x ∈ l, -32768 ≤ x ∧ x ≤ 32767) →
    (∀ j, 0 ≤ (processSamples st l).1.window j ∧
      (processSamples st l).1.window j ≤ 32768 / 32767) ∧
    (∀ μ ∈ (processSamples st l).2, 0 ≤ μ ∧ μ ≤ 32768 / 32767) := by
  induction l with
  | nil =>
      intro st hw _
      exact ⟨hw, by simp [processSamples]⟩
  | cons s rest ih =>
      intro st hw hl
      have hs := amp_bounds s (hl s (by simp)).1 (hl s (by simp)).2
      have hw' : ∀ j, 0 ≤ (observe st s).1.window j ∧
          (observe st s).1.window j ≤ 32768 / 32767 := by
        intro j
        rw [observe_fst]
        dsimp only
        by_cases hj : j = st.sampleCount % windowSize
        · rw [if_pos hj]
          exact hs
        · rw [if_neg hj]
          exact hw j
      have hrest := ih (observe st s).1 hw' (fun x hx => hl x (by simp [hx]))
      rw [processSamples_cons]
      refine ⟨hrest.1, ?_⟩
      intro μ hμ
      simp only [List.mem_append] at hμ
      rcases hμ with hμ | hμ
      · rw [observe_snd] at hμ
        by_cases he : windowSize ≤ st.sampleCount + 1
        · simp only [he, if_true, Option.toList_some, List.mem_singleton] at hμ
          subst hμ
          exact mean_bounds _ hw'
        · simp [he] at hμ
      · exact hrest.2 μ hμ

/-- C6 (amended): every normalised amplitude lies in
`[0, 32768/32767]` (slightly above 1 at the most negative sample), and
consequently so does every ring-buffer slot and every emitted window
mean; the bound `1` of the claim fails only at the sample `-32768`. -/
theorem amp_range_amended (l : List ℤ) (s : ℤ) (j m : ℕ)
    (hl : ∀ x ∈ l, -32768 ≤ x ∧ x ≤ 32767) :
    (-32768 ≤ s → s ≤ 32767 → 0 ≤ amp s ∧ amp s ≤ 32768 / 32767) ∧
    (0 ≤ (processSamples initEst l).1.window j ∧
      (processSamples initEst l).1.window j ≤ 32768 / 32767) ∧
    (0 ≤ (processSamples initEst l).2.getD m 0 ∧
      (processSamples initEst l).2.getD m 0 ≤ 32768 / 32767) := by
  have hinit : ∀ j, 0 ≤ initEst.window j ∧ initEst.window j ≤ 32768 / 32767 := by
    intro j
    constructor
    · exact le_refl 0
    · show (0 : ℚ) ≤ 32768 / 32767
      norm_num
  have h := est_bounds l initEst hinit hl
  refine ⟨fun h1 h2 => amp_bounds s h1 h2, h.1 j, ?_⟩
  by_cases hm : m < (processSamples initEst l).2.length
  · rw [List.getD_eq_getElem _ _ hm]
    exact h.2 _ (List.getElem_mem hm)
  · rw [List.getD_eq_default _ _ (by omega)]
    constructor
    · exact le_refl 0
    · show (0 : ℚ) ≤ 32768 / 32767
      norm_num

/-- Witness for C6 at the boundary sample and a one-sample run. -/
theorem amp_range_amended_witness :
    (-32768 ≤ (-32768 : ℤ) → (-32768 : ℤ) ≤ 32767 →
      0 ≤ amp (-32768) ∧ amp (-32768) ≤ 32768 / 32767) ∧
    (0 ≤ (processSamples initEst [5]).1.window 0 ∧
      (processSamples initEst [5]).1.window 0 ≤ 32768 / 32767) ∧
    (0 ≤ (processSamples initEst [5]).2.getD 0 0 ∧
      (processSamples initEst [5]).2.getD 0 0 ≤ 32768 / 32767) :=
  amp_range_amended [5] (-32768) 0 0
    (by intro x hx; simp at hx; subst hx; norm_num)

/-! ## Capture-loop lemmas -/

theorem processBlock_cons (est : EstState) (det : DetState) (s : ℤ) (rest : List ℤ) :
    processBlock est det (s :: rest) =
      match (observe est s).2 with
      | none => processBlock (observe est s).1 det rest
      | some c =>
        if (detStep det c).2 then ((observe est s).1, (detStep det c).1, true)
        else processBlock (observe est s).1 (detStep det c).1 rest := rfl

theorem captureLoop_cons (b : List ℤ) (rest : List (List ℤ)) (flag : ℕ → Bool) (i : ℕ)
    (st : CaptureState) :
    captureLoop (b :: rest) flag i st =
      if flag i then (st.buffer, false)
      else if (processBlock st.est st.det b).2.2 then (st.buffer ++ b, true)
      else captureLoop rest flag (i + 1)
        ⟨st.buffer ++ b, (processBlock st.est st.det b).1,
          (processBlock st.est st.det b).2.1⟩ := rfl

theorem processBlock_sampleCount (b : List ℤ) : ∀ (est : EstState) (det : DetState),
    (processBlock est det b).1.sampleCount ≤ est.sampleCount + b.length := by
  induction b with
  | nil => intro est det; simp [processBlock]
  | cons s rest ih =>
      intro est det
      rw [processBlock_cons]
      have hsc : (observe est s).1.sampleCount = est.sampleCount + 1 := by
        rw [observe_fst]
      cases ho : (observe est s).2 with
      | none =>
          simp only
          calc (processBlock (observe est s).1 det rest).1.sampleCount
              ≤ (observe est s).1.sampleCount + rest.length := ih _ _
            _ ≤ est.sampleCount + (s :: rest).length := by
                rw [hsc, List.length_cons]
                omega
      | some c =>
          simp only
          by_cases hr : (detStep det c).2 = true
          · rw [if_pos hr]
            show (observe est s).1.sampleCount ≤ _
            rw [hsc]
            simp
          · rw [if_neg hr]
            calc (processBlock (observe est s).1 (detStep det c).1 rest).1.sampleCount
                ≤ (observe est s).1.sampleCount + rest.length := ih _ _
              _ ≤ est.sampleCount + (s :: rest).length := by
                  rw [hsc, List.length_cons]
                  omega

theorem processBlock_stop (b : List ℤ) : ∀ (est : EstState) (det : DetState),
    (processBlock est det b).2.2 = true →
    windowSize ≤ (processBlock est det b).1.sampleCount := by
  induction b with
  | nil => intro est det h; simp [processBlock] at h
  | cons s rest ih =>
      intro est det
      rw [processBlock_cons]
      cases ho : (observe est s).2 with
      | none =>
          simp only
          exact ih _ _
      | some c =>
          simp only
          by_cases hr : (detStep det c).2 = true
          · rw [if_pos hr]
            intro _
            have hemit : windowSize ≤ est.sampleCount + 1 := by
              rw [observe_snd] at ho
              by_cases he : windowSize ≤ est.sampleCount + 1
              · exact he
              · simp [he] at ho
            show windowSize ≤ (observe est s).1.sampleCount
            rw [observe_fst]
            exact hemit
          · rw [if_neg hr]
            exact ih _ _

theorem captureLoop_stop_bound (blocks : List (List ℤ)) : ∀ (flag : ℕ → Bool) (i : ℕ)
    (st : CaptureState), st.est.sampleCount ≤ st.buffer.length →
    (captureLoop blocks flag i st).2 = true →
    windowSize ≤ (captureLoop blocks flag i st).1.length := by
  induction blocks with
  | nil => intro flag i st _ h; simp [captureLoop] at h
  | cons b rest ih =>
      intro flag i st hinv
      rw [captureLoop_cons]
      by_cases hf : flag i = true
      · rw [if_pos hf]
        intro h
        simp at h
      · rw [if_neg hf]
        by_cases hs : (processBlock st.est st.det b).2.2 = true
        · rw [if_pos hs]
          intro _
          have h1 := processBlock_stop b st.est st.det hs
          have h2 := processBlock_sampleCount b st.est st.det
          show windowSize ≤ (st.buffer ++ b).length
          rw [List.length_append]
          omega
        · rw [if_neg hs]
          apply ih
          have h2 := processBlock_sampleCount b st.est st.det
          show (processBlock st.est st.det b).1.sampleCount ≤ (st.buffer ++ b).length
          rw [List.length_append]
          omega

/-- C9: whenever the capture loop terminates because the detector
signalled Stop (rather than the external interrupt or end of input), the
returned buffer holds at least `windowSize = 32000` samples — stated in
the contrapositive: a buffer shorter than one window cannot have come
from a detector stop, because evaluations (and hence Stop) require
`sampleCount >= windowSize` and every processed sample is in the buffer. -/
theorem capture_stop_buffer_lower_bound (blocks : List (List ℤ)) (flag : ℕ → Bool)
    (hsmall : (captureLoop blocks flag 0 initCapture).1.length < windowSize) :
    (captureLoop blocks flag 0 initCapture).2 = false := by
  cases hb : (captureLoop blocks flag 0 initCapture).2 with
  | false => rfl
  | true =>
      have := captureLoop_stop_bound blocks flag 0 initCapture
        (by simp [initCapture, initEst]) hb
      omega

/-- Witness for C9 with the flag raised before the first read. -/
theorem capture_stop_buffer_lower_bound_witness :
    (captureLoop [] (fun _ => false) 0 initCapture).1.length < windowSize ∧
    (captureLoop [] (fun _ => false) 0 initCapture).2 = false :=
  ⟨by decide, capture_stop_buffer_lower_bound [] (fun _ => false) (by decide)⟩

theorem captureLoop_block_aligned (blocks : List (List ℤ)) : ∀ (flag : ℕ → Bool) (i : ℕ)
    (st : CaptureState), (∀ b ∈ blocks, b.length = 512) →
    st.buffer.length % 512 = 0 →
    (captureLoop blocks flag i st).1.length % 512 = 0 := by
  induction blocks with
  | nil => intro flag i st _ h; simpa [captureLoop] using h
  | cons b rest ih =>
      intro flag i st hb hbuf
      rw [captureLoop_cons]
      have hb512 : b.length = 512 := hb b (by simp)
      by_cases hf : flag i = true
      · rw [if_pos hf]
        exact hbuf
      · rw [if_neg hf]
        by_cases hs : (processBlock st.est st.det b).2.2 = true
        · rw [if_pos hs]
          show (st.buffer ++ b).length % 512 = 0
          rw [List.length_append, hb512]
          omega
        · rw [if_neg hs]
          apply ih _ _ _ (fun x hx => hb x (by simp [hx]))
          show (st.buffer ++ b).length % 512 = 0
          rw [List.length_append, hb512]
          omega

/-- C10: on every exit path of the capture loop the returned buffer holds
a whole number of 512-sample blocks (its byte length is a multiple of
1024): each block is appended in full before any of its samples is
evaluated, and the loop never returns a partially appended block. -/
theorem capture_buffer_block_aligned (blocks : List (List ℤ)) (flag : ℕ → Bool)
    (hb : ∀ b ∈ blocks, b.length = 512) :
    (captureLoop blocks flag 0 initCapture).1.length % 512 = 0 ∧
    (2 * (captureLoop blocks flag 0 initCapture).1.length) % 1024 = 0 := by
  have h := captureLoop_block_aligned blocks flag 0 initCapture hb (by simp [initCapture])
  exact ⟨h, by omega⟩

/-- Witness for C10 on the empty block stream. -/
theorem capture_buffer_block_aligned_witness :
    (captureLoop [] (fun _ => true) 0 initCapture).1.length % 512 = 0 ∧
    (2 * (captureLoop [] (fun _ => true) 0 initCapture).1.length) % 1024 = 0 :=
  capture_buffer_block_aligned [] (fun _ => true) (by simp)

/-- C7: if the interrupt stop flag is already set at the first loop
iteration, the capture loop returns an empty buffer without reading any
block, and the encoder still emits a valid 44-byte header whose dataSize
field (bytes 40-43) is 0 and whose chunk-size field (bytes 4-7) is 36. -/
theorem interrupt_before_read (blocks : List (List ℤ)) (flag : ℕ → Bool)
    (hflag : flag 0 = true) :
    captureLoop blocks flag 0 initCapture = ([], false) ∧
    (encodeWAV []).length = 44 ∧
    parseU32 (encodeWAV []) 40 = 0 ∧
    parseU32 (encodeWAV []) 4 = 36 := by
  refine ⟨?_, by decide, by decide, by decide⟩
  cases blocks with
  | nil => rfl
  | cons b rest =>
      rw [captureLoop_cons, if_pos hflag]
      rfl

/-- Witness for C7 with a nonempty pending input stream. -/
theorem interrupt_before_read_witness :
    captureLoop [[7]] (fun _ => true) 0 initCapture = ([], false) ∧
    (encodeWAV []).length = 44 ∧
    parseU32 (encodeWAV []) 40 = 0 ∧
    parseU32 (encodeWAV []) 4 = 36 :=
  interrupt_before_read [[7]] (fun _ => true) rfl

/-! ## WAV container lemmas -/

theorem headerBytes_createWAVHeader (d : ℕ) :
    headerBytes (createWAVHeader d) =
      82 :: 73 :: 70 :: 70 ::
      ((36 + d) % 256) :: ((36 + d) / 256 % 256) ::
      ((36 + d) / 65536 % 256) :: ((36 + d) / 16777216 % 256) ::
      87 :: 65 :: 86 :: 69 :: 102 :: 109 :: 116 :: 32 ::
      16 :: 0 :: 0 :: 0 :: 1 :: 0 :: 1 :: 0 ::
      128 :: 62 :: 0 :: 0 :: 0 :: 125 :: 0 :: 0 :: 2 :: 0 :: 16 :: 0 ::
      100 :: 97 :: 116 :: 97 ::
      (d % 256) :: (d / 256 % 256) :: (d / 65536 % 256) :: (d / 16777216 % 256) :: [] := by
  unfold headerBytes createWAVHeader u32le u16le sampleRate
  norm_num

theorem length_flatMap_int16le (samples : List ℤ) :
    (samples.flatMap int16le).length = 2 * samples.length := by
  induction samples with
  | nil => simp
  | cons s rest ih =>
      simp only [List.flatMap_cons, List.length_append, ih, int16le,
        List.length_cons, List.length_nil]
      omega

theorem encodeWAV_dataSize (samples : List ℤ) :
    parseU32 (encodeWAV samples) 40 = 2 * samples.length % 4294967296 := by
  unfold encodeWAV parseU32
  rw [headerBytes_createWAVHeader]
  simp only [List.cons_append, List.nil_append, List.drop_succ_cons, List.drop_zero,
    List.take_succ_cons, List.take_zero, deLE]
  omega

/-- C4 counterexample: for a buffer of `2^31` samples the dataSize field
stores `2 * 2^31 mod 2^32 = 0`, so parsing the header back does not
recover `dataSize = 2k` for every `k` — the Go `uint32` conversion wraps. -/
theorem wav_datasize_counterexample :
    ¬ (parseU32 (encodeWAV (List.replicate 2147483648 (0 : ℤ))) 40 =
        2 * (List.replicate 2147483648 (0 : ℤ)).length) := by
  intro hc
  rw [encodeWAV_dataSize, List.length_replicate] at hc
  omega

theorem encodeWAV_chunkSize (samples : List ℤ) :
    parseU32 (encodeWAV samples) 4 =
      (36 + 2 * samples.length % 4294967296) % 4294967296 := by
  unfold encodeWAV parseU32
  rw [headerBytes_createWAVHeader]
  simp only [List.cons_append, List.nil_append, List.drop_succ_cons, List.drop_zero,
    List.take_succ_cons, List.take_zero, deLE]
  omega

theorem encodeWAV_length (samples : List ℤ) :
    (encodeWAV samples).length = 44 + 2 * samples.length := by
  unfold encodeWAV
  rw [headerBytes_createWAVHeader]
  simp only [List.cons_append, List.nil_append, List.length_cons, length_flatMap_int16le]
  omega

theorem encodeWAV_tagRIFF (samples : List ℤ) :
    (encodeWAV samples).take 4 = [82, 73, 70, 70] := by
  unfold encodeWAV
  rw [headerBytes_createWAVHeader]
  simp only [List.cons_append, List.nil_append, List.drop_succ_cons, List.drop_zero,
    List.take_succ_cons, List.take_zero, deLE]

theorem encodeWAV_tagWAVE (samples : List ℤ) :
    ((encodeWAV samples).drop 8).take 4 = [87, 65, 86, 69] := by
  unfold encodeWAV
  rw [headerBytes_createWAVHeader]
  simp only [List.cons_append, List.nil_append, List.drop_succ_cons, List.drop_zero,
    List.take_succ_cons, List.take_zero, deLE]

theorem encodeWAV_tagFmt (samples : List ℤ) :
    ((encodeWAV samples).drop 12).take 4 = [102, 109, 116, 32] := by
  unfold encodeWAV
  rw [headerBytes_createWAVHeader]
  simp only [List.cons_append, List.nil_append, List.drop_succ_cons, List.drop_zero,
    List.take_succ_cons, List.take_zero, deLE]

theorem encodeWAV_tagData (samples : List ℤ) :
    ((encodeWAV samples).drop 36).take 4 = [100, 97, 116, 97] := by
  unfold encodeWAV
  rw [headerBytes_createWAVHeader]
  simp only [List.cons_append, List.nil_append, List.drop_succ_cons, List.drop_zero,
    List.take_succ_cons, List.take_zero, deLE]

theorem encodeWAV_subchunk1Size (samples : List ℤ) :
    parseU32 (encodeWAV samples) 16 = 16 := by
  unfold encodeWAV parseU32
  rw [headerBytes_createWAVHeader]
  simp only [List.cons_append, List.nil_append, List.drop_succ_cons, List.drop_zero,
    List.take_succ_cons, List.take_zero, deLE]

theorem encodeWAV_audioFormat (samples : List ℤ) :
    parseU16 (encodeWAV samples) 20 = 1 := by
  unfold encodeWAV parseU16
  rw [headerBytes_createWAVHeader]
  simp only [List.cons_append, List.nil_append, List.drop_succ_cons, List.drop_zero,
    List.take_succ_cons, List.take_zero, deLE]

theorem encodeWAV_numChannels (samples : List ℤ) :
    parseU16 (encodeWAV samples) 22 = 1 := by
  unfold encodeWAV parseU16
  rw [headerBytes_createWAVHeader]
  simp only [List.cons_append, List.nil_append, List.drop_succ_cons, List.drop_zero,
    List.take_succ_cons, List.take_zero, deLE]

theorem encodeWAV_sampleRate (samples : List ℤ) :
    parseU32 (encodeWAV samples) 24 = 16000 := by
  unfold encodeWAV parseU32
  rw [headerBytes_createWAVHeader]
  simp only [List.cons_append, List.nil_append, List.drop_succ_cons, List.drop_zero,
    List.take_succ_cons, List.take_zero, deLE]

theorem encodeWAV_byteRate (samples : List ℤ) :
    parseU32 (encodeWAV samples) 28 = 32000 := by
  unfold encodeWAV parseU32
  rw [headerBytes_createWAVHeader]
  simp only [List.cons_append, List.nil_append, List.drop_succ_cons, List.drop_zero,
    List.take_succ_cons, List.take_zero, deLE]

theorem encodeWAV_blockAlign (samples : List ℤ) :
    parseU16 (encodeWAV samples) 32 = 2 := by
  unfold encodeWAV parseU16
  rw [headerBytes_createWAVHeader]
  simp only [List.cons_append, List.nil_append, List.drop_succ_cons, List.drop_zero,
    List.take_succ_cons, List.take_zero, deLE]

theorem encodeWAV_bitsPerSample (samples : List ℤ) :
    parseU16 (encodeWAV samples) 34 = 16 := by
  unfold encodeWAV parseU16
  rw [headerBytes_createWAVHeader]
  simp only [List.cons_append, List.nil_append, List.drop_succ_cons, List.drop_zero,
    List.take_succ_cons, List.take_zero, deLE]

theorem encodeWAV_tail (samples : List ℤ) :
    (encodeWAV samples).drop 44 = samples.flatMap int16le := by
  unfold encodeWAV
  rw [headerBytes_createWAVHeader]
  simp only [List.cons_append, List.nil_append, List.drop_succ_cons, List.drop_zero,
    List.take_succ_cons, List.take_zero, deLE]

/-- C4 (amended): for every buffer of `k` samples with
`36 + 2k < 2^32` (no 32-bit overflow of the size fields), the encoder
emits the 44-byte little-endian header followed by the `2k` sample
bytes, and parsing the header back recovers the ASCII tags RIFF, WAVE,
"fmt ", data at their fixed offsets, audio format 1, mono, sample rate
16000, byte rate 32000, block align 2, 16 bits per sample, chunk size
`36 + 2k` and dataSize `2k`. -/
theorem wav_roundtrip_amended (samples : List ℤ)
    (hk : 36 + 2 * samples.length < 4294967296) :
    (encodeWAV samples).length = 44 + 2 * samples.length ∧
    ((encodeWAV samples).take 4 = [82, 73, 70, 70] ∧
     ((encodeWAV samples).drop 8).take 4 = [87, 65, 86, 69] ∧
     ((encodeWAV samples).drop 12).take 4 = [102, 109, 116, 32] ∧
     ((encodeWAV samples).drop 36).take 4 = [100, 97, 116, 97]) ∧
    (parseU32 (encodeWAV samples) 16 = 16 ∧
     parseU16 (encodeWAV samples) 20 = 1 ∧
     parseU16 (encodeWAV samples) 22 = 1 ∧
     parseU32 (encodeWAV samples) 24 = 16000 ∧
     parseU32 (encodeWAV samples) 28 = 32000 ∧
     parseU16 (encodeWAV samples) 32 = 2 ∧
     parseU16 (encodeWAV samples) 34 = 16) ∧
    parseU32 (encodeWAV samples) 4 = 36 + 2 * samples.length ∧
    parseU32 (encodeWAV samples) 40 = 2 * samples.length ∧
    (encodeWAV samples).drop 44 = samples.flatMap int16le := by
  have hd : 2 * samples.length % 4294967296 = 2 * samples.length :=
    Nat.mod_eq_of_lt (by omega)
  have hcs := encodeWAV_chunkSize samples
  rw [hd, Nat.mod_eq_of_lt (by omega)] at hcs
  have hds := encodeWAV_dataSize samples
  rw [hd] at hds
  exact ⟨encodeWAV_length samples,
    ⟨encodeWAV_tagRIFF samples, encodeWAV_tagWAVE samples,
     encodeWAV_tagFmt samples, encodeWAV_tagData samples⟩,
    ⟨encodeWAV_subchunk1Size samples, encodeWAV_audioFormat samples,
     encodeWAV_numChannels samples, encodeWAV_sampleRate samples,
     encodeWAV_byteRate samples, encodeWAV_blockAlign samples,
     encodeWAV_bitsPerSample samples⟩, hcs, hds, encodeWAV_tail samples⟩

/-- Witness for C4 on a one-sample buffer. -/
theorem wav_roundtrip_amended_witness :
    (encodeWAV [100]).length = 44 + 2 * ([100] : List ℤ).length ∧
    parseU32 (encodeWAV [100]) 4 = 36 + 2 * ([100] : List ℤ).length ∧
    parseU32 (encodeWAV [100]) 40 = 2 * ([100] : List ℤ).length := by
  have h := wav_roundtrip_amended [100] (by decide)
  exact ⟨h.1, h.2.2.2.1, h.2.2.2.2.1⟩

/-! ## Beep lemmas -/

/-- C8: the tone generator produces `floor(0.15 * 16000) = 2400` samples;
sample `i` is `sin(2π·980·t) · sin(π·t/0.15) · 0.5` with `t = i/16000`;
the first sample is exactly 0 and the last sample's amplitude is below
`1/1000` (the half-sine envelope endpoints). -/
theorem beep_spec :
    beepNumSamples = 2400 ∧
    (∀ i : ℕ, beepSample i =
      Real.sin (2 * Real.pi * 980 * ((i : ℝ) / 16000)) *
        Real.sin (Real.pi * ((i : ℝ) / 16000) / 0.15) * 0.5) ∧
    beepSample 0 = 0 ∧
    |beepSample 2399| < 1 / 1000 := by
  refine ⟨?_, fun i => rfl, ?_, ?_⟩
  · have h : beepDuration * 16000 = (2400 : ℚ) := by norm_num [beepDuration]
    rw [beepNumSamples, h]
    norm_num
    rfl
  · unfold beepSample
    norm_num
  · unfold beepSample
    have hcast : ((2399 : ℕ) : ℝ) = 2399 := by norm_num
    rw [hcast]
    have harg : Real.pi * ((2399 : ℝ) / 16000) / 0.15 = Real.pi - Real.pi * (1 / 2400) := by
      rw [show (0.15 : ℝ) = 3 / 20 by norm_num]
      ring
    rw [harg, Real.sin_pi_sub]
    have hpos : (0 : ℝ) < Real.pi * (1 / 2400) := by positivity
    have hs1 : |Real.sin (2 * Real.pi * 980 * ((2399 : ℝ) / 16000))| ≤ 1 :=
      Real.abs_sin_le_one _
    have hs2 : Real.sin (Real.pi * (1 / 2400)) < Real.pi * (1 / 2400) := Real.sin_lt hpos
    have hsp : 0 < Real.sin (Real.pi * (1 / 2400)) := by
      apply Real.sin_pos_of_pos_of_lt_pi hpos
      nlinarith [Real.pi_pos]
    have hs2' : |Real.sin (Real.pi * (1 / 2400))| ≤ Real.pi * (1 / 2400) := by
      rw [abs_of_pos hsp]
      exact le_of_lt hs2
    have hpi : Real.pi < 3.15 := Real.pi_lt_d2
    rw [abs_mul, abs_mul]
    have h05 : |(0.5 : ℝ)| = 0.5 := by norm_num
    rw [h05]
    have hb : |Real.sin (2 * Real.pi * 980 * ((2399 : ℝ) / 16000))| *
        |Real.sin (Real.pi * (1 / 2400))| * 0.5 ≤ 1 * (Real.pi * (1 / 2400)) * 0.5 := by
      gcongr
    calc |Real.sin (2 * Real.pi * 980 * ((2399 : ℝ) / 16000))| *
          |Real.sin (Real.pi * (1 / 2400))| * 0.5
        ≤ 1 * (Real.pi * (1 / 2400)) * 0.5 := hb
      _ < 1 / 1000 := by nlinarith [Real.pi_lt_d2]
